import Mathlib

/-!
Verification of the reconciliation / aggregation / rendering pipeline of the
evm-deployment-info CLI (src/main.rs), as a shallow embedding in Lean 4.

Modelling conventions:
- Rust strings are modelled as Lean `String` / `List Char`; the character
  classes of the regexes (`\w`, `\d`, `\s`, `[a-z0-9]`, `[A-Z]`) and of
  `char::is_uppercase` are modelled by the corresponding ASCII predicates
  (`Char.isAlphanum`, `Char.isDigit`, `Char.isWhitespace`, `Char.isLower`,
  `Char.isUpper`); network names and config texts handled by the tool are
  ASCII, where the two agree.
- `u64` is modelled as `Nat` with an explicit `2^64 - 1` bound where the code
  can overflow (`str::parse::<u64>`).
- File-system state is passed explicitly: the per-chain deployment store is a
  function from chain id to an abstract directory state, the deployments
  directory listing is an explicit list of entries, and writing output is
  modelled as the list of file-system actions the code performs.
- Fallible Rust code (`Result<_, String>`) becomes `Except String _`.
-/

/-! ## Character classes (ASCII models of the regex classes) -/

/-- Model of the regex class `\w` (`[0-9A-Za-z_]` on ASCII input). -/
def isWordChar (c : Char) : Bool := c.isAlphanum || c == '_'

/-- Model of the regex class `\s` on ASCII input. -/
def isSpaceChar (c : Char) : Bool := c.isWhitespace

/-- Largest value of Rust's `u64`. -/
def u64max : Nat := 2 ^ 64 - 1

/-- Numeric value of a string of ASCII decimal digits (most significant first),
as computed by `str::parse` before its overflow check. -/
def digitsToNat (ds : List Char) : Nat :=
  ds.foldl (fun acc c => acc * 10 + (c.toNat - 48)) 0

/-! ## `camel_to_title_case` (main.rs lines 91-104)

The Rust function first applies the regex replacement
`([a-z0-9])([A-Z])` -> `"$1 $2"` (insert a space between a lowercase
letter / digit and an uppercase letter), then splits on whitespace and
uppercases the first character of each word, joining with single spaces.
Successive regex matches cannot overlap, and the second character of a match
(uppercase) can never begin another match, so the replacement is exactly a
single left-to-right pass over adjacent pairs. -/

/-- Single pass inserting a space between `[a-z0-9]` and `[A-Z]` pairs,
modelling `re.replace_all(s, "$1 $2")` for the pattern `([a-z0-9])([A-Z])`. -/
def insertSpaces : List Char → List Char
  | a :: b :: rest =>
    if (a.isLower || a.isDigit) && b.isUpper then a :: ' ' :: insertSpaces (b :: rest)
    else a :: insertSpaces (b :: rest)
  | l => l

/-- Split on whitespace, dropping empty fragments, modelling
`str::split_whitespace`. The first argument accumulates the current word in
reverse. -/
def splitWsAux : List Char → List Char → List (List Char)
  | [], acc => if acc.isEmpty then [] else [acc.reverse]
  | c :: cs, acc =>
    if c.isWhitespace then
      (if acc.isEmpty then splitWsAux cs [] else acc.reverse :: splitWsAux cs [])
    else splitWsAux cs (c :: acc)

/-- Uppercase the first character of a word (model of the per-word map in
`camel_to_title_case`; `char::to_uppercase` on ASCII yields one character). -/
def capWord : List Char → List Char
  | [] => []
  | c :: cs => c.toUpper :: cs

/-- Model of `camel_to_title_case` (main.rs lines 91-104). -/
def camel_to_title_case (s : String) : String :=
  String.mk (List.intercalate [' '] ((splitWsAux (insertSpaces s.data) []).map capWord))

/-! ## JSON values and the deployment store reader -/

/-- Structural model of `serde_json::Value`. Objects carry their entries in
enumeration order. Numbers are modelled as integers (the records the tool
reads never hold non-integer numbers, and no claim depends on float values). -/
inductive JValue where
  | null : JValue
  | bool : Bool → JValue
  | num : Int → JValue
  | str : String → JValue
  | arr : List JValue → JValue
  | obj : List (String × JValue) → JValue

/-- Model of `Value::as_str` restricted to the use in
`get_deployment_address`: `Some` exactly on JSON strings. -/
def jAsStr : JValue → Option String
  | .str s => some s
  | _ => none

/-- Model of `data.as_object().and_then(|obj| obj.values().next())`: the first
entry's value of an object, `none` for any non-object. -/
def jObjFirstValue : JValue → Option JValue
  | .obj ((_, v) :: _) => some v
  | _ => none

/-- Abstract state of one chain directory, as observed by
`get_deployment_address`:
`absent` - `deployed_addresses.json` does not exist;
`readErr` - the file exists but `fs::read_to_string` fails;
`parseErr` - the file reads but is not valid JSON;
`record v` - the file parses to the JSON value `v`. -/
inductive ChainDirState where
  | absent : ChainDirState
  | readErr : String → ChainDirState
  | parseErr : String → ChainDirState
  | record : JValue → ChainDirState

/-- Model of `get_deployment_address` (main.rs lines 124-141). -/
def get_deployment_address : ChainDirState → Except String (Option String)
  | .absent => .ok none
  | .readErr c => .error ("Failed to read deployed_addresses.json: " ++ c)
  | .parseErr c => .error ("Failed to parse deployed_addresses.json: " ++ c)
  | .record v => .ok ((jObjFirstValue v).bind jAsStr)

/-! ## Reconciliation (the loop of `list_deployments`, main.rs lines 171-187)

The config mapping is a `HashMap`; its iteration order is arbitrary, so the
loop is modelled over an explicit list of `(name, chain_id)` pairs and the
claims quantify over that order. The store is a function from chain id to the
state of the directory `deployments/chain-<id>`. -/

/-- Result of the reconciliation loop: the `found_deployments` and
`missing_deployments` vectors, plus the warnings printed to stderr. -/
structure ReconOut where
  found : List (String × String)
  missing : List String
  warnings : List String
deriving DecidableEq

/-- Warning text printed by the `Err` arm (main.rs line 185). -/
def warningMsg (name e : String) : String :=
  "Warning: Error reading deployment for " ++ name ++ ": " ++ e

/-- Model of the reconciliation loop of `list_deployments`
(main.rs lines 171-187): skip `"hardhat"`; `Ok(Some a)` pushes onto `found`,
`Ok(None)` pushes onto `missing`, `Err e` prints a warning and pushes onto
neither. -/
def reconcile (store : Nat → ChainDirState) : List (String × Nat) → ReconOut
  | [] => ⟨[], [], []⟩
  | (name, cid) :: rest =>
    if name = "hardhat" then reconcile store rest
    else
      let r := reconcile store rest
      match get_deployment_address (store cid) with
      | .ok (some addr) => ⟨(name, addr) :: r.found, r.missing, r.warnings⟩
      | .ok none => ⟨r.found, name :: r.missing, r.warnings⟩
      | .error e => ⟨r.found, r.missing, warningMsg name e :: r.warnings⟩

/-- True when the store read for this chain id returns `Err` (the arm of
main.rs line 185). -/
def storeErrored (store : Nat → ChainDirState) (cid : Nat) : Bool :=
  match get_deployment_address (store cid) with
  | .error _ => true
  | .ok _ => false

/-! ## The aggregation name split (main.rs lines 196-204 and the three
textually identical copies)

`let parts = network.split(|c| c.is_uppercase());` followed by
`parts[0]` and `network[prefix.len()..]`; an empty suffix becomes the
sentinel `"Mainnet"`. -/

/-- Model of Rust `str::split` with a character predicate: the separators are
removed and the fragments between them are returned (both ends count, so a
leading separator yields a leading empty fragment). -/
def rustSplitParts (p : Char → Bool) : List Char → List (List Char)
  | [] => [[]]
  | c :: cs =>
    if p c then [] :: rustSplitParts p cs
    else
      match rustSplitParts p cs with
      | h :: t => (c :: h) :: t
      | [] => [[c]]

/-- Model of the aggregation split: `parts[0]` of the uppercase split, the
remainder of the name, and the `"Mainnet"` sentinel for an empty remainder. -/
def agg_split (network : String) : String × String :=
  let pre := (rustSplitParts (fun c => c.isUpper) network.data).headD []
  let suf := network.data.drop pre.length
  (String.mk pre, if suf.isEmpty then "Mainnet" else String.mk suf)

/-! ## Renderers -/

/-- Sorted insertion into an association list ordered by key, replacing an
existing binding: the model of `serde_json::Map::insert` (a `BTreeMap` keyed
by `String` in the default configuration used by this crate). -/
def btreeInsert (l : List (String × JValue)) (k : String) (v : JValue) :
    List (String × JValue) :=
  match l with
  | [] => [(k, v)]
  | (k', v') :: rest =>
    if k < k' then (k, v) :: (k', v') :: rest
    else if k = k' then (k, v) :: rest
    else (k', v') :: btreeInsert rest k v

/-- Model of the non-aggregating JSON output of `list_deployments`
(main.rs lines 189-192, 212-218, 221, 241-251): the `deployments` key is
present only when `found` is non-empty, the `missing` key only when `missing`
is non-empty. The top-level map holds `"deployments" < "missing"` in
`BTreeMap` order. -/
def list_json_nonagg (found : List (String × String)) (missing : List String) : JValue :=
  let deployments := found.foldl (fun acc p => btreeInsert acc p.1 (.str p.2)) []
  let part1 := if found.isEmpty then [] else [("deployments", JValue.obj deployments)]
  let part2 := if missing.isEmpty then [] else [("missing", JValue.arr (missing.map JValue.str))]
  JValue.obj (part1 ++ part2)

/-- Model of the non-aggregating CSV output of `list_deployments`
(main.rs lines 262-263, 321-331): a header, one row per found entry in input
order, and (when `missing` is non-empty) a `Missing Networks` section whose
entries end with a comma and no newline. -/
def list_csv_nonagg (found : List (String × String)) (missing : List String) : String :=
  let base := "Network,Address\n" ++
    String.join (found.map (fun p => camel_to_title_case p.1 ++ "," ++ p.2 ++ "\n"))
  if missing.isEmpty then base
  else base ++ "\nMissing Networks\n" ++
    String.join (missing.map (fun n => camel_to_title_case n ++ ","))

/-- Byte-lexicographic strict order on character lists, the model of Rust's
`str::cmp` (ASCII bytes coincide with code points). -/
def lexLt : List Char → List Char → Bool
  | _, [] => false
  | [], _ :: _ => true
  | a :: as, b :: bs =>
    if a.toNat < b.toNat then true
    else if b.toNat < a.toNat then false
    else lexLt as bs

/-- Byte-lexicographic order, non-strict. -/
def lexLe (a b : List Char) : Bool := !(lexLt b a)

/-- Ordering of found entries by network name, the comparator of
`sort_by(|a, b| a.0.cmp(&b.0))` (main.rs line 396). -/
def nameLe (a b : String × String) : Prop := lexLe a.1.data b.1.data = true

/-- Ordering of missing names, the comparator of `Vec::<String>::sort`
(main.rs line 452). -/
def strLe (a b : String) : Prop := lexLe a.data b.data = true

instance : DecidableRel nameLe := fun a b => inferInstanceAs (Decidable (_ = true))

instance : DecidableRel strLe := fun a b => inferInstanceAs (Decidable (_ = true))

/-- Model of the sort applied to `found_deployments` before the plain-table
rendering (main.rs line 396, `sort_by(|a, b| a.0.cmp(&b.0))`, a stable sort
by name). -/
def table_found_input (found : List (String × String)) : List (String × String) :=
  found.insertionSort nameLe

/-- Model of the sort applied to `missing_deployments` before the plain-table
rendering (main.rs line 452, `missing_deployments.sort()`). -/
def table_missing_input (missing : List String) : List String :=
  missing.insertionSort strLe

/-! ## Output sinks -/

/-- An output path together with its parent directory as computed by Rust's
`Path::parent` (`none` when the path has no parent). -/
structure SinkPath where
  path : String
  parent : Option String
deriving DecidableEq

/-- File-system/console actions performed when emitting rendered output. -/
inductive OutAction where
  | createDirAll : String → OutAction
  | writeFile : String → String → OutAction
  | printStdout : String → OutAction
deriving DecidableEq

/-- Model of the sink logic shared by the List JSON path (main.rs lines
254-261), the Audit JSON path (lines 521-528) and the Audit CSV path (lines
542-549): with an outfile, create the parent directories (when a parent
exists) and write the file; otherwise print to stdout. -/
def sink_actions_with_mkdir (outfile : Option SinkPath) (content : String) :
    List OutAction :=
  match outfile with
  | some sp =>
    (match sp.parent with
     | some d => [.createDirAll d]
     | none => []) ++ [.writeFile sp.path content]
  | none => [.printStdout content]

/-- Model of the sink logic of the List CSV path (main.rs lines 334-338):
with an outfile the content is written directly, with no
`fs::create_dir_all` call; otherwise it is printed to stdout. -/
def sink_actions_plain (outfile : Option SinkPath) (content : String) :
    List OutAction :=
  match outfile with
  | some sp => [.writeFile sp.path content]
  | none => [.printStdout content]

/-! ## Audit: deployments without configs (main.rs lines 483-499) -/

/-- One entry of the `deployments` directory as seen by `read_dir`: its file
name and whether it is a directory. -/
structure DirEntry where
  name : String
  isDir : Bool

/-- Numeric value of a nonempty all-digit string with the `u64` bound, the
digit-and-overflow core of `str::parse::<u64>`. -/
def parseDigits (ds : List Char) : Option Nat :=
  if ds.isEmpty then none
  else if ds.all Char.isDigit then
    if digitsToNat ds ≤ u64max then some (digitsToNat ds) else none
  else none

/-- Model of `str::parse::<u64>` (ASCII): an optional leading `+`, then one or
more decimal digits, rejecting values above `u64::MAX`. -/
def parse_u64 (s : String) : Option Nat :=
  match s.data with
  | '+' :: ds => parseDigits ds
  | ds => parseDigits ds

/-- Characters of the directory-name pattern `chain-`. -/
def chainDashPre : List Char := ['c', 'h', 'a', 'i', 'n', '-']

/-- Per-entry classification of the orphan scan (main.rs lines 487-497): an
entry contributes its chain id exactly when it is a directory named
`chain-<n>` with `<n>` parseable as `u64` and `<n>` absent from the config
mapping's value set; every other entry is skipped without an error. -/
def orphanOf (networks : List (String × Nat)) (e : DirEntry) : Option Nat :=
  if e.isDir then
    if chainDashPre.isPrefixOf e.name.data then
      match parse_u64 (String.mk (e.name.data.drop 6)) with
      | some cid => if networks.any (fun p => p.2 == cid) then none else some cid
      | none => none
    else none
  else none

/-- Model of the `deployment_without_config` collection loop
(main.rs lines 483-499), preserving directory enumeration order. -/
def audit_orphans (networks : List (String × Nat)) (entries : List DirEntry) :
    List Nat :=
  entries.filterMap (orphanOf networks)

/-! ## Config extraction (`parse_hardhat_config`, main.rs lines 106-122)

The Rust code runs `captures_iter` of the regex
`(\w+):\s*\{[^}]*chainId:\s*(\d+)` over the config text and inserts
`name -> chain_id` into a `HashMap`, failing when a digit token overflows
`u64`. The scanner below implements exactly the leftmost-first semantics of
that fixed pattern:

- at a candidate start, `\w+` is forced to the maximal word-char run (any
  shorter run leaves a word char where the literal `:` must match);
- `\s*` before the opening brace is likewise forced maximal;
- the greedy `[^}]*` prefers the latest viable occurrence of
  `chainId:\s*\d+`; since none of the characters of `chainId:`, of `\s` or of
  `\d` can be a closing brace, the whole tail of a match lies strictly before
  the first closing brace after the opening one;
- `captures_iter` resumes scanning at the end of the previous match. -/

/-- Characters of the literal `chainId:` inside the pattern. -/
def chainIdTag : List Char := ['c', 'h', 'a', 'i', 'n', 'I', 'd', ':']

/-- Attempt to match `chainId:\s*(\d+)` at the start of `v`, returning the
digit capture and the number of characters consumed. -/
def viableAt (v : List Char) : Option (String × Nat) :=
  if chainIdTag.isPrefixOf v then
    let w := v.drop 8
    let ws := w.takeWhile isSpaceChar
    let ds := (w.drop ws.length).takeWhile Char.isDigit
    if ds.isEmpty then none else some (String.mk ds, 8 + ws.length + ds.length)
  else none

/-- Latest viable occurrence of `chainId:\s*(\d+)` in `u`, as preferred by the
greedy `[^}]*`: the digit capture together with the end offset of the match
inside `u`. -/
def lastViable : List Char → Option (String × Nat)
  | [] => none
  | c :: cs =>
    match lastViable cs with
    | some (ds, n) => some (ds, n + 1)
    | none => viableAt (c :: cs)

/-- Match the part of the pattern after the opening brace against `r4`: the
greedy `[^}]*` keeps the search strictly before the first closing brace.
Returns the digit capture and the consumed length. -/
def matchInner (r4 : List Char) : Option (String × Nat) :=
  lastViable (r4.takeWhile (fun c => c != '\x7d'))

/-- Attempt to match the whole pattern `(\w+):\s*\{[^}]*chainId:\s*(\d+)`
starting exactly at the head of `l`: the two captures and the total number of
characters consumed. -/
def matchAt (l : List Char) : Option (String × String × Nat) :=
  let name := l.takeWhile isWordChar
  if name.isEmpty then none
  else
    match l.drop name.length with
    | ':' :: r2 =>
      let ws := r2.takeWhile isSpaceChar
      match r2.drop ws.length with
      | '\x7b' :: r4 =>
        match matchInner r4 with
        | some (ds, innerLen) => some (String.mk name, ds, name.length + 1 + ws.length + 1 + innerLen)
        | none => none
      | _ => none
    | _ => none

/-- Fuel-indexed scan implementing `captures_iter`: at each position try a
match; on success emit the captures and resume after the match, otherwise
advance one character. The fuel only needs to cover the input length, since
every step consumes at least one character. -/
def scanAux : Nat → List Char → List (String × String)
  | 0, _ => []
  | _, [] => []
  | fuel + 1, c :: cs =>
    match matchAt (c :: cs) with
    | some (name, ds, n) => (name, ds) :: scanAux fuel ((c :: cs).drop (n.max 1))
    | none => scanAux fuel cs

/-- All captures of `captures_iter` over `l`, in order. -/
def scanCaptures (l : List Char) : List (String × String) :=
  scanAux l.length l

/-- Model of `HashMap::insert`: replace the binding when the key is present,
otherwise add a new binding. (The list order is irrelevant: `HashMap`
iteration order is arbitrary, and the claims about reconciliation quantify
over it separately.) -/
def hashInsert (l : List (String × Nat)) (k : String) (v : Nat) :
    List (String × Nat) :=
  if l.any (fun p => p.1 == k) then l.map (fun p => if p.1 == k then (k, v) else p)
  else l ++ [(k, v)]

/-- Left fold of `hashInsert` over capture pairs starting from the empty map:
the `networks` map built by the extraction loop. -/
def insertAll (l : List (String × Nat)) : List (String × Nat) :=
  l.foldl (fun acc p => hashInsert acc p.1 p.2) []

/-- Lookup in the model association map. -/
def lookupName (l : List (String × Nat)) (k : String) : Option Nat :=
  (l.find? (fun p => p.1 == k)).map Prod.snd

/-- Model of `parse_hardhat_config` (main.rs lines 106-122) applied to the
already-read config text: every capture pair is parsed and inserted in order,
aborting with the `Invalid chain ID` error on `u64` overflow. -/
def parse_hardhat_config (content : String) : Except String (List (String × Nat)) :=
  (scanCaptures content.data).foldlM
    (fun acc nd =>
      if u64max < digitsToNat nd.2.data then
        Except.error ("Invalid chain ID for network " ++ nd.1)
      else Except.ok (hashInsert acc nd.1 (digitsToNat nd.2.data)))
    []

/-! ## Canonical well-formed config texts

A well-formed network block is an identifier followed, inside its own brace
block, by a numeric `chainId` field. `blockChars` renders one such block;
`buildConfig` joins blocks with newlines. The extraction theorems quantify
over arbitrary identifier and digit tokens. -/

/-- One well-formed network block: `<name>: \x7b chainId: <tok> \x7d`. -/
def blockChars (name tok : List Char) : List Char :=
  name ++ ':' :: ' ' :: '\x7b' :: ' ' :: (chainIdTag ++ ' ' :: (tok ++ ' ' :: '\x7d' :: []))

/-- A config text made of well-formed blocks separated by newlines. -/
def buildConfig : List (List Char × List Char) → List Char
  | [] => []
  | (n, t) :: rest => blockChars n t ++ '\n' :: buildConfig rest

/-- Well-formedness of one generator entry: a nonempty word-character name
and a nonempty digit token whose value fits in `u64`. -/
def GoodBlock (b : List Char × List Char) : Prop :=
  b.1 ≠ [] ∧ (∀ c ∈ b.1, isWordChar c = true) ∧
  b.2 ≠ [] ∧ (∀ c ∈ b.2, c.isDigit = true) ∧ digitsToNat b.2 ≤ u64max

instance (b : List Char × List Char) : Decidable (GoodBlock b) := by
  unfold GoodBlock
  infer_instance

/-- Store used by the C4 counterexample: addresses for chains 1 and 2. -/
def c4store : Nat → ChainDirState := fun cid =>
  if cid = 1 then .record (.obj [("m", .str "0xa")])
  else if cid = 2 then .record (.obj [("m", .str "0xb")])
  else .absent

/-- Store used by the C5 counterexample: addresses for chains 1 and 2. -/
def c5store : Nat → ChainDirState := fun cid =>
  if cid = 1 then .record (.obj [("m", .str "0xa")])
  else if cid = 2 then .record (.obj [("m", .str "0xb")])
  else .absent

/-! ## Helper lemmas -/

theorem string_mk_data (s : String) : String.mk s.data = s := by
  cases s; rfl

theorem takeWhile_all (p : Char → Bool) (l : List Char) (h : ∀ c ∈ l, p c = true) :
    l.takeWhile p = l := by
  induction l with
  | nil => rfl
  | cons a as ih =>
    simp only [List.takeWhile_cons, h a (by simp)]
    simp [ih (fun c hc => h c (by simp [hc]))]

theorem takeWhile_run (p : Char → Bool) (xs : List Char) (y : Char) (t : List Char)
    (hx : ∀ c ∈ xs, p c = true) (hy : p y = false) :
    (xs ++ y :: t).takeWhile p = xs := by
  induction xs with
  | nil => simp [List.takeWhile_cons, hy]
  | cons a as ih =>
    simp only [List.cons_append, List.takeWhile_cons, hx a (by simp)]
    simp [ih (fun c hc => hx c (by simp [hc]))]

theorem rustSplitParts_ne_nil (p : Char → Bool) (l : List Char) :
    rustSplitParts p l ≠ [] := by
  cases l with
  | nil => simp [rustSplitParts]
  | cons c cs =>
    by_cases hc : p c
    · simp [rustSplitParts, hc]
    · simp only [rustSplitParts, hc, if_false]
      cases rustSplitParts p cs <;> simp

theorem rustSplitParts_headD (p : Char → Bool) (l : List Char) :
    (rustSplitParts p l).headD [] = l.takeWhile (fun c => !(p c)) := by
  induction l with
  | nil => rfl
  | cons c cs ih =>
    by_cases hc : p c
    · simp [rustSplitParts, hc, List.takeWhile_cons]
    · have hc' : p c = false := by simpa using hc
      simp only [rustSplitParts, hc', if_false, List.takeWhile_cons, Bool.not_false]
      cases h : rustSplitParts p cs with
      | nil => exact absurd h (rustSplitParts_ne_nil p cs)
      | cons hh tt =>
        rw [h] at ih
        simp at ih
        simp [ih]

theorem lexLt_asymm {a b : List Char} (h : lexLt a b = true) : lexLt b a = false := by
  induction a generalizing b with
  | nil =>
    cases b with
    | nil => simpa [lexLt] using h
    | cons y ys => simp [lexLt]
  | cons x xs ih =>
    cases b with
    | nil => simp [lexLt] at h
    | cons y ys =>
      by_cases hxy : x.toNat < y.toNat
      · have : ¬ y.toNat < x.toNat := by omega
        simp [lexLt, hxy, this]
      · by_cases hyx : y.toNat < x.toNat
        · simp [lexLt, hxy, hyx] at h
        · simp only [lexLt, if_neg hxy, if_neg hyx] at h
          simp [lexLt, hxy, hyx, ih h]

theorem lexLt_trans {a b c : List Char} (h1 : lexLt a b = true) (h2 : lexLt b c = true) :
    lexLt a c = true := by
  induction a generalizing b c with
  | nil =>
    cases b with
    | nil => simp [lexLt] at h1
    | cons y ys =>
      cases c with
      | nil => simp [lexLt] at h2
      | cons z zs => simp [lexLt]
  | cons x xs ih =>
    cases b with
    | nil => simp [lexLt] at h1
    | cons y ys =>
      cases c with
      | nil => simp [lexLt] at h2
      | cons z zs =>
        simp only [lexLt] at h1 h2 ⊢
        by_cases hxy : x.toNat < y.toNat
        · by_cases hyz : y.toNat < z.toNat
          · have : x.toNat < z.toNat := by omega
            simp [this]
          · by_cases hzy : z.toNat < y.toNat
            · simp [hyz, hzy] at h2
            · have hxz : x.toNat < z.toNat := by omega
              simp [hxz]
        · by_cases hyx : y.toNat < x.toNat
          · simp [hxy, hyx] at h1
          · have hv : x.toNat = y.toNat := by omega
            by_cases hyz : y.toNat < z.toNat
            · have : x.toNat < z.toNat := by omega
              simp [this]
            · by_cases hzy : z.toNat < y.toNat
              · simp [hyz, hzy] at h2
              · have hxz : ¬ x.toNat < z.toNat := by omega
                have hzx : ¬ z.toNat < x.toNat := by omega
                simp only [if_neg hxy, if_neg hyx] at h1
                simp only [if_neg hyz, if_neg hzy] at h2
                simp [hxz, hzx, ih h1 h2]

theorem lexLt_connex {a b : List Char} (h : a ≠ b) :
    lexLt a b = true ∨ lexLt b a = true := by
  induction a generalizing b with
  | nil =>
    cases b with
    | nil => exact absurd rfl h
    | cons y ys => left; simp [lexLt]
  | cons x xs ih =>
    cases b with
    | nil => right; simp [lexLt]
    | cons y ys =>
      by_cases hxy : x.toNat < y.toNat
      · left; simp [lexLt, hxy]
      · by_cases hyx : y.toNat < x.toNat
        · right; simp [lexLt, hyx]
        · have hx : x = y := by
            have hn : x.toNat = y.toNat := by omega
            exact Char.eq_of_val_eq (UInt32.ext hn)
          subst hx
          have hxs : xs ≠ ys := fun he => h (by rw [he])
          rcases ih hxs with h' | h'
          · left; simp [lexLt, hxy, hyx, h']
          · right; simp [lexLt, hxy, hyx, h']

theorem lexLe_total (a b : List Char) : lexLe a b = true ∨ lexLe b a = true := by
  by_cases h : lexLt b a = true
  · right
    simp [lexLe, lexLt_asymm h]
  · left
    simp [lexLe]
    simpa using h

theorem lexLe_trans {a b c : List Char} (h1 : lexLe a b = true) (h2 : lexLe b c = true) :
    lexLe a c = true := by
  simp only [lexLe, Bool.not_eq_true'] at h1 h2 ⊢
  by_contra hca
  have hca' : lexLt c a = true := by simpa using hca
  by_cases hcb : c = b
  · subst hcb
    rw [hca'] at h1
    exact absurd h1 (by simp)
  · rcases lexLt_connex hcb with h' | h'
    · rw [h'] at h2
      exact absurd h2 (by simp)
    · have hba := lexLt_trans h' hca'
      rw [hba] at h1
      exact absurd h1 (by simp)

/-- Distinct strings have distinct character data. -/
theorem data_ne_of_ne {a b : String} (h : a ≠ b) : a.data ≠ b.data := by
  intro he
  apply h
  have hmk := congrArg String.mk he
  rwa [string_mk_data, string_mk_data] at hmk

/-! ## Claim C3: the aggregation split -/

/-- C3 counterexample: the claim asserts that `"EthereumMainnet"` maps to
prefix `"Ethereum"` / suffix `"Mainnet"` and `"Ethereum"` to
`("Ethereum", "Mainnet")`. In the code, `str::split` on an uppercase
predicate treats a leading uppercase letter as a separator, so `parts[0]` is
empty: both names keep an empty prefix and the whole name as suffix. -/
theorem c3_counterexample :
    agg_split "EthereumMainnet" = ("", "EthereumMainnet") ∧
    agg_split "EthereumMainnet" ≠ ("Ethereum", "Mainnet") ∧
    agg_split "Ethereum" = ("", "Ethereum") ∧
    agg_split "Ethereum" ≠ ("Ethereum", "Mainnet") := by
  refine ⟨by decide, by decide, by decide, by decide⟩

/-- C3 amended: the split occurs at the first uppercase letter counting the
leading character (not only internal ones): `"ethereumMainnet"` splits to
`("ethereum", "Mainnet")`; a name with no uppercase letter at all gets the
sentinel suffix `"Mainnet"`; and for any name `pre ++ c :: rest` whose head
run `pre` has no uppercase letter and where `c` is uppercase, the split is
exactly `(pre, c :: rest)` - so a name beginning with an uppercase letter
gets the empty prefix and the whole name as suffix. -/
theorem c3_amended :
    agg_split "ethereumMainnet" = ("ethereum", "Mainnet") ∧
    (∀ s : String, (∀ c ∈ s.data, c.isUpper = false) → agg_split s = (s, "Mainnet")) ∧
    (∀ (pre : List Char) (c : Char) (rest : List Char),
       (∀ x ∈ pre, x.isUpper = false) → c.isUpper = true →
       agg_split (String.mk (pre ++ c :: rest)) = (String.mk pre, String.mk (c :: rest))) := by
  refine ⟨by decide, ?_, ?_⟩
  · intro s hs
    unfold agg_split
    rw [rustSplitParts_headD]
    rw [takeWhile_all _ _ (fun c hc => by simp [hs c hc])]
    simp [string_mk_data]
  · intro pre c rest hpre hc
    unfold agg_split
    rw [rustSplitParts_headD]
    simp only
    rw [takeWhile_run _ _ _ _ (fun x hx => by simp [hpre x hx]) (by simp [hc])]
    rw [List.drop_left]
    simp

/-- C3 witness: the amended general rule applied to the concrete name
`"polySep"`. -/
theorem c3_witness :
    agg_split (String.mk ("poly".data ++ 'S' :: "ep".data)) =
      (String.mk "poly".data, String.mk ('S' :: "ep".data)) :=
  c3_amended.2.2 "poly".data 'S' "ep".data (by decide) (by decide)

/-! ## Claim C4: CSV determinism -/

/-- C4 counterexample: the non-aggregating CSV path renders
`found_deployments` in config-iteration order without sorting, and the
config mapping is a `HashMap` whose iteration order varies between runs. Two
runs whose iteration orders differ produce the same found set (a permutation)
but different CSV bytes. -/
theorem c4_counterexample :
    ((reconcile c4store [("alpha", 1), ("beta", 2)]).found).Perm
      ((reconcile c4store [("beta", 2), ("alpha", 1)]).found) ∧
    list_csv_nonagg (reconcile c4store [("alpha", 1), ("beta", 2)]).found [] ≠
      list_csv_nonagg (reconcile c4store [("beta", 2), ("alpha", 1)]).found [] := by
  constructor
  · decide
  · decide

/-- C4 amended: the CSV renderer is deterministic in the found list it is
handed (same list, same bytes), and two runs produce byte-identical CSV
whenever their found lists are permutations of each other that are both
sorted by name with distinct names - but the List command does not sort the
list before the CSV path, so byte-identity across runs with the same found
set is not guaranteed. -/
theorem c4_amended (l1 l2 : List (String × String)) (m : List String)
    (hp : l1.Perm l2)
    (hs1 : List.Sorted nameLe l1)
    (hs2 : List.Sorted nameLe l2)
    (hnd : (l1.map Prod.fst).Nodup) :
    list_csv_nonagg l1 m = list_csv_nonagg l2 m := by
  have hnd2 : (l2.map Prod.fst).Nodup := ((hp.map Prod.fst).nodup_iff).mp hnd
  have hlt : ∀ (l : List (String × String)),
      List.Sorted nameLe l →
      (l.map Prod.fst).Nodup →
      List.Pairwise (fun a b : String × String => lexLt a.1.data b.1.data = true) l := by
    intro l hs hn
    have hne : List.Pairwise (fun a b : String × String => a.1 ≠ b.1) l :=
      (List.pairwise_map).mp hn
    refine (hs.and hne).imp (fun h => ?_)
    rcases lexLt_connex (data_ne_of_ne h.2) with h' | h'
    · exact h'
    · have := h.1
      simp only [nameLe, lexLe, Bool.not_eq_true'] at this
      rw [h'] at this
      exact absurd this (by simp)
  haveI : IsAntisymm (String × String)
      (fun a b : String × String => lexLt a.1.data b.1.data = true) :=
    ⟨fun a b h1 h2 => by
      have := lexLt_asymm h1
      rw [h2] at this
      exact absurd this (by simp)⟩
  have : l1 = l2 :=
    List.eq_of_perm_of_sorted hp (hlt l1 hs1 hnd) (hlt l2 hs2 hnd2)
  rw [this]

/-- C4 witness: the amended determinism theorem at a concrete sorted list. -/
theorem c4_witness :
    (([("a", "0x1"), ("b", "0x2")] : List (String × String)).Perm
      [("a", "0x1"), ("b", "0x2")]) ∧
    list_csv_nonagg [("a", "0x1"), ("b", "0x2")] [] =
      list_csv_nonagg [("a", "0x1"), ("b", "0x2")] [] :=
  ⟨List.Perm.refl _,
   c4_amended _ _ [] (List.Perm.refl _) (by decide) (by decide) (by decide)⟩

/-! ## Claim C6: the deployment store reader -/

/-- C6 counterexample: a record whose first enumerated entry is a number and
whose second entry is an address string. The claim says the reader returns
the first address-valued entry (`"0x1"`); the code takes the first entry's
value, fails the string coercion, and returns `Ok(None)`. -/
theorem c6_counterexample :
    get_deployment_address
      (.record (.obj [("count", .num 2), ("addr", .str "0x1")])) = .ok none ∧
    jAsStr (JValue.str "0x1") = some "0x1" ∧
    ("addr", JValue.str "0x1") ∈ [("count", JValue.num 2), ("addr", JValue.str "0x1")] := by
  refine ⟨rfl, rfl, by simp⟩

/-- C6 amended: the reader returns the first enumerated entry's value exactly
when that value is a string, and `none` otherwise - even when a later entry
is address-valued; an absent record yields `Ok(None)` rather than an error;
an unreadable record fails with the parse error. -/
theorem c6_amended :
    (∀ (k : String) (v : JValue) (rest : List (String × JValue)),
       get_deployment_address (.record (.obj ((k, v) :: rest))) = .ok (jAsStr v)) ∧
    get_deployment_address .absent = .ok none ∧
    (∀ c, get_deployment_address (.parseErr c) =
       .error ("Failed to parse deployed_addresses.json: " ++ c)) :=
  ⟨fun _ _ _ => rfl, rfl, fun _ => rfl⟩

/-! ## Claim C7: the JSON scenario -/

/-- C7: rendering `found = [("ethereum", "0xabc")]`, `missing = []` without
aggregation yields exactly the document with a single `deployments` key and
no `missing` key. -/
theorem c7_json_scenario :
    list_json_nonagg [("ethereum", "0xabc")] [] =
      JValue.obj [("deployments", JValue.obj [("ethereum", JValue.str "0xabc")])] := rfl

/-! ## Claim C8: output sinks -/

/-- C8 counterexample: the List command's CSV path writes the outfile without
creating parent directories - no `create_dir_all` action occurs. -/
theorem c8_counterexample :
    sink_actions_plain (some ⟨"out/report.csv", some "out"⟩) "rows" =
      [OutAction.writeFile "out/report.csv" "rows"] ∧
    OutAction.createDirAll "out" ∉
      sink_actions_plain (some ⟨"out/report.csv", some "out"⟩) "rows" := by
  refine ⟨rfl, by decide⟩

/-- C8 amended: with a sink path, every rendering path writes the rendered
content to the file and not to standard output; the List JSON, Audit JSON and
Audit CSV paths first create the sink's parent directories, but the List CSV
path performs no directory creation. -/
theorem c8_amended (sp : SinkPath) (content d : String) (hp : sp.parent = some d) :
    sink_actions_with_mkdir (some sp) content =
      [OutAction.createDirAll d, OutAction.writeFile sp.path content] ∧
    sink_actions_plain (some sp) content = [OutAction.writeFile sp.path content] ∧
    (∀ s, OutAction.printStdout s ∉ sink_actions_with_mkdir (some sp) content) ∧
    (∀ s, OutAction.printStdout s ∉ sink_actions_plain (some sp) content) := by
  refine ⟨by simp [sink_actions_with_mkdir, hp], rfl, ?_, ?_⟩
  · intro s
    simp [sink_actions_with_mkdir, hp]
  · intro s
    simp [sink_actions_plain]

/-- C8 witness: the amended theorem at a concrete sink with parent `"out"`. -/
theorem c8_witness :
    (⟨"out/x.json", some "out"⟩ : SinkPath).parent = some "out" ∧
    sink_actions_with_mkdir (some ⟨"out/x.json", some "out"⟩) "doc" =
      [OutAction.createDirAll "out", OutAction.writeFile "out/x.json" "doc"] :=
  ⟨rfl, (c8_amended ⟨"out/x.json", some "out"⟩ "doc" "out" rfl).1⟩

/-! ## Claim C10: the orphan scan of the Audit command -/

/-- C10: an entry of the deployments directory contributes a chain id to
`deployment_without_config` exactly when it is a directory named `chain-<n>`
with `<n>` parseable as `u64` and `<n>` absent from the config value set;
everything else is skipped without an error, and two directory names parsing
to the same integer (`chain-5`, `chain-05`) each contribute an entry, while a
file, a non-matching name, a trailing non-digit and an out-of-`u64`-range
number are all skipped. -/
theorem c10_orphan_rule (nets : List (String × Nat)) (e : DirEntry) (cid : Nat) :
    (orphanOf nets e = some cid ↔
      (e.isDir = true ∧
       chainDashPre.isPrefixOf e.name.data = true ∧
       parse_u64 (String.mk (e.name.data.drop 6)) = some cid ∧
       nets.any (fun p => p.2 == cid) = false)) ∧
    audit_orphans [("goerli", 1)]
      [⟨"chain-5", true⟩, ⟨"chain-05", true⟩, ⟨"notes.txt", false⟩, ⟨"xchain-5", true⟩,
       ⟨"chain-5x", true⟩, ⟨"chain-18446744073709551616", true⟩] = [5, 5] := by
  constructor
  · constructor
    · intro h
      cases hd : e.isDir
      · simp [orphanOf, hd] at h
      · cases hpre : chainDashPre.isPrefixOf e.name.data
        · simp [orphanOf, hd, hpre] at h
        · cases hp : parse_u64 (String.mk (e.name.data.drop 6)) with
          | none => simp [orphanOf, hd, hpre, hp] at h
          | some v =>
            cases ha : nets.any (fun p => p.2 == v)
            · have hv : v = cid := by
                simpa [orphanOf, hd, hpre, hp, ha] using h
              subst hv
              exact ⟨rfl, rfl, rfl, ha⟩
            · simp [orphanOf, hd, hpre, hp, ha] at h
    · rintro ⟨hd, hpre, hp, ha⟩
      simp [orphanOf, hd, hpre, hp, ha]
  · decide

/-! ## Claim C1: store-read errors during List reconciliation -/

/-- C1 counterexample: for the config `[("alpha", 1)]` with an unreadable
record for chain 1, the claim says the error downgrades to a warning *and*
the network is classified as missing; in the code the warning is printed but
`"alpha"` lands in neither `found` nor `missing`. -/
theorem c1_counterexample :
    storeErrored (fun _ => ChainDirState.parseErr "bad json") 1 = true ∧
    (reconcile (fun _ => ChainDirState.parseErr "bad json") [("alpha", 1)]).missing = [] ∧
    (reconcile (fun _ => ChainDirState.parseErr "bad json") [("alpha", 1)]).found = [] ∧
    (reconcile (fun _ => ChainDirState.parseErr "bad json") [("alpha", 1)]).warnings ≠ [] := by
  refine ⟨rfl, rfl, rfl, by decide⟩

/-- C1 amended: a store-read error for one network is downgraded to a warning
and never aborts the reconciliation (the loop result for the remaining
networks is exactly the result without the failing entry), but the failing
network is dropped: it is classified neither as found nor as missing. -/
theorem c1_amended (pre post : List (String × Nat)) (store : Nat → ChainDirState)
    (name : String) (cid : Nat) (e : String)
    (hname : name ≠ "hardhat")
    (herr : get_deployment_address (store cid) = .error e) :
    (reconcile store (pre ++ (name, cid) :: post)).found =
      (reconcile store (pre ++ post)).found ∧
    (reconcile store (pre ++ (name, cid) :: post)).missing =
      (reconcile store (pre ++ post)).missing ∧
    warningMsg name e ∈ (reconcile store (pre ++ (name, cid) :: post)).warnings := by
  induction pre with
  | nil =>
    simp only [List.nil_append, reconcile, if_neg hname, herr]
    simp
  | cons p pre ih =>
    obtain ⟨pn, pc⟩ := p
    by_cases hpn : pn = "hardhat"
    · simpa only [List.cons_append, reconcile, if_pos hpn] using ih
    · simp only [List.cons_append, reconcile, if_neg hpn]
      cases hg : get_deployment_address (store pc) with
      | error e2 => refine ⟨?_, ?_, ?_⟩ <;> simp [ih.1, ih.2.1, ih.2.2]
      | ok o =>
        cases o with
        | none => refine ⟨?_, ?_, ?_⟩ <;> simp [ih.1, ih.2.1, ih.2.2]
        | some a => refine ⟨?_, ?_, ?_⟩ <;> simp [ih.1, ih.2.1, ih.2.2]

/-- C1 witness: the amended theorem at a one-entry config whose store read
fails with a parse error. -/
theorem c1_witness :
    ("beta" ≠ "hardhat") ∧
    warningMsg "beta" "Failed to parse deployed_addresses.json: x" ∈
      (reconcile (fun _ => ChainDirState.parseErr "x") [("beta", 1)]).warnings :=
  ⟨by decide,
   (c1_amended [] [] (fun _ => ChainDirState.parseErr "x") "beta" 1
     "Failed to parse deployed_addresses.json: x" (by decide) rfl).2.2⟩

/-! ## Claim C2: the found / missing partition -/

theorem recon_found_names_subset (store : Nat → ChainDirState)
    (nets : List (String × Nat)) :
    ∀ n ∈ (reconcile store nets).found.map Prod.fst, n ∈ nets.map Prod.fst := by
  induction nets with
  | nil => simp [reconcile]
  | cons p rest ih =>
    obtain ⟨pn, pc⟩ := p
    by_cases hpn : pn = "hardhat"
    · simp only [reconcile, if_pos hpn]
      intro n hn
      simp [ih n hn]
    · simp only [reconcile, if_neg hpn]
      cases hg : get_deployment_address (store pc) with
      | error e => intro n hn; simp [ih n hn]
      | ok o =>
        cases o with
        | none => intro n hn; simp [ih n hn]
        | some a =>
          intro n hn
          simp only [List.map_cons, List.mem_cons] at hn ⊢
          rcases hn with h | h
          · exact Or.inl h
          · exact Or.inr (ih n h)

theorem recon_missing_subset (store : Nat → ChainDirState)
    (nets : List (String × Nat)) :
    ∀ n ∈ (reconcile store nets).missing, n ∈ nets.map Prod.fst := by
  induction nets with
  | nil => simp [reconcile]
  | cons p rest ih =>
    obtain ⟨pn, pc⟩ := p
    by_cases hpn : pn = "hardhat"
    · simp only [reconcile, if_pos hpn]
      intro n hn
      simp [ih n hn]
    · simp only [reconcile, if_neg hpn]
      cases hg : get_deployment_address (store pc) with
      | error e => intro n hn; simp [ih n hn]
      | ok o =>
        cases o with
        | some a => intro n hn; simp [ih n hn]
        | none =>
          intro n hn
          simp only [List.mem_cons] at hn
          rcases hn with h | h
          · simp [h]
          · simp [ih n h]

/-- C2 counterexample: with the config `[("gamma", 3)]` and a store whose
read for chain 3 fails, `found` and `missing` are both empty, so their union
is not the config name set minus `"hardhat"` (which is `["gamma"]`). -/
theorem c2_counterexample :
    ¬ (((reconcile (fun _ => ChainDirState.readErr "io") [("gamma", 3)]).found.map Prod.fst ++
        (reconcile (fun _ => ChainDirState.readErr "io") [("gamma", 3)]).missing).Perm
       ((([("gamma", 3)] : List (String × Nat)).map Prod.fst).filter
         (fun n => n != "hardhat"))) := by
  intro h
  exact absurd h.length_eq (by decide)

/-- C2 amended: `"hardhat"` never appears in `found` or `missing`; the
multiset union of found names and missing names is exactly the config names
minus `"hardhat"` and minus the networks whose store read returned an error;
and for a config mapping (distinct names) `found` and `missing` are disjoint.
When no store read errors, the union is exactly the config names minus
`"hardhat"`, as the original claim states. -/
theorem c2_amended (nets : List (String × Nat)) (store : Nat → ChainDirState)
    (hnd : (nets.map Prod.fst).Nodup) :
    ("hardhat" ∉ (reconcile store nets).found.map Prod.fst ∧
     "hardhat" ∉ (reconcile store nets).missing) ∧
    ((reconcile store nets).found.map Prod.fst ++ (reconcile store nets).missing).Perm
      ((nets.filter (fun p => p.1 != "hardhat" && !storeErrored store p.2)).map Prod.fst) ∧
    (∀ n, n ∈ (reconcile store nets).found.map Prod.fst →
      n ∉ (reconcile store nets).missing) := by
  induction nets with
  | nil => exact ⟨⟨by simp [reconcile], by simp [reconcile]⟩, by simp [reconcile], by simp [reconcile]⟩
  | cons p rest ih =>
    obtain ⟨pn, pc⟩ := p
    simp only [List.map_cons, List.nodup_cons] at hnd
    obtain ⟨hpf, hrest⟩ := hnd
    obtain ⟨⟨ihf, ihm⟩, ihp, ihd⟩ := ih hrest
    by_cases hpn : pn = "hardhat"
    · subst hpn
      refine ⟨⟨?_, ?_⟩, ?_, ?_⟩
      · simpa only [reconcile, if_pos rfl] using ihf
      · simpa only [reconcile, if_pos rfl] using ihm
      · simp only [reconcile, if_pos rfl, List.filter_cons]
        simpa using ihp
      · simpa only [reconcile, if_pos rfl] using ihd
    · have hfilter : (((pn, pc) :: rest).filter
          (fun p => p.1 != "hardhat" && !storeErrored store p.2)) =
          if storeErrored store pc then
            rest.filter (fun p => p.1 != "hardhat" && !storeErrored store p.2)
          else (pn, pc) :: rest.filter (fun p => p.1 != "hardhat" && !storeErrored store p.2) := by
        cases hse : storeErrored store pc <;> simp [List.filter_cons, hpn, hse]
      cases hg : get_deployment_address (store pc) with
      | error e =>
        have hse : storeErrored store pc = true := by simp [storeErrored, hg]
        refine ⟨⟨?_, ?_⟩, ?_, ?_⟩
        · simpa only [reconcile, if_neg hpn, hg] using ihf
        · simpa only [reconcile, if_neg hpn, hg] using ihm
        · simp only [reconcile, if_neg hpn, hg, hfilter, hse, if_pos]
          exact ihp
        · simpa only [reconcile, if_neg hpn, hg] using ihd
      | ok o =>
        have hse : storeErrored store pc = false := by simp [storeErrored, hg]
        cases o with
        | some a =>
          refine ⟨⟨?_, ?_⟩, ?_, ?_⟩
          · simp only [reconcile, if_neg hpn, hg, List.map_cons, List.mem_cons]
            rintro (h | h)
            · exact hpn h.symm
            · exact ihf h
          · simpa only [reconcile, if_neg hpn, hg] using ihm
          · simp only [reconcile, if_neg hpn, hg, hfilter, hse]
            rw [if_neg (by simp)]
            simpa using ihp.cons pn
          · simp only [reconcile, if_neg hpn, hg, List.map_cons, List.mem_cons]
            rintro n (h | h)
            · subst h
              intro hmem
              exact hpf (recon_missing_subset store rest n hmem)
            · exact ihd n h
        | none =>
          refine ⟨⟨?_, ?_⟩, ?_, ?_⟩
          · simpa only [reconcile, if_neg hpn, hg] using ihf
          · simp only [reconcile, if_neg hpn, hg, List.mem_cons]
            rintro (h | h)
            · exact hpn h.symm
            · exact ihm h
          · simp only [reconcile, if_neg hpn, hg, hfilter, hse]
            rw [if_neg (by simp)]
            refine (List.perm_middle).trans ?_
            simpa using ihp.cons pn
          · simp only [reconcile, if_neg hpn, hg, List.mem_cons]
            intro n h
            rintro (h2 | h2)
            · subst h2
              exact hpf (recon_found_names_subset store rest n h)
            · exact ihd n h h2

/-- C2 witness: the amended partition theorem at a concrete two-network
config with one found and one missing deployment. -/
theorem c2_witness :
    (([("delta", 1), ("eps", 2)] : List (String × Nat)).map Prod.fst).Nodup ∧
    "hardhat" ∉ (reconcile
      (fun cid => if cid = 1 then ChainDirState.record (.obj [("m", .str "0xd")])
        else ChainDirState.absent) [("delta", 1), ("eps", 2)]).missing :=
  ⟨by decide,
   (c2_amended [("delta", 1), ("eps", 2)]
     (fun cid => if cid = 1 then ChainDirState.record (.obj [("m", .str "0xd")])
       else ChainDirState.absent) (by decide)).1.2⟩

/-! ## Claim C5: ordering before rendering -/

/-- C5 counterexample: the claim asserts `found` and `missing` are sorted
before *every* non-aggregating renderer and `orphaned` is sorted ascending.
In the code only the plain-table path sorts: the CSV (and JSON) paths consume
the reconciliation output directly, which follows the hash-map iteration
order and can be unsorted, and the audit orphan list is never sorted. -/
theorem c5_counterexample :
    (reconcile c5store [("zeta", 1), ("alpha", 2)]).found =
      [("zeta", "0xa"), ("alpha", "0xb")] ∧
    ¬ List.Sorted nameLe ((reconcile c5store [("zeta", 1), ("alpha", 2)]).found) ∧
    list_csv_nonagg (reconcile c5store [("zeta", 1), ("alpha", 2)]).found [] =
      "Network,Address\nZeta,0xa\nAlpha,0xb\n" ∧
    audit_orphans [("x", 1)] [⟨"chain-9", true⟩, ⟨"chain-2", true⟩] = [9, 2] ∧
    ¬ List.Sorted (fun a b : Nat => a ≤ b)
        (audit_orphans [("x", 1)] [⟨"chain-9", true⟩, ⟨"chain-2", true⟩]) := by
  refine ⟨rfl, by decide, by decide, by decide, by decide⟩

/-- C5 amended: only the plain-table path sorts: `found_deployments` and
`missing_deployments` are sorted lexicographically by name before the
non-aggregating table renderer, while the JSON and CSV renderers and both
audit lists receive reconciliation / directory order unchanged. -/
theorem c5_amended :
    (∀ l, List.Sorted nameLe (table_found_input l)) ∧
    (∀ m, List.Sorted strLe (table_missing_input m)) := by
  constructor
  · intro l
    haveI : IsTotal (String × String) nameLe := ⟨fun a b => lexLe_total a.1.data b.1.data⟩
    haveI : IsTrans (String × String) nameLe := ⟨fun _ _ _ h1 h2 => lexLe_trans h1 h2⟩
    exact List.sorted_insertionSort nameLe l
  · intro m
    haveI : IsTotal String strLe := ⟨fun a b => lexLe_total a.data b.data⟩
    haveI : IsTrans String strLe := ⟨fun _ _ _ h1 h2 => lexLe_trans h1 h2⟩
    exact List.sorted_insertionSort strLe m

/-! ## Claim C9: lemmas about the pattern scanner -/

theorem ne_of_pred_mismatch {p : Char → Bool} {c d : Char}
    (h1 : p c = true) (h2 : p d = false) : c ≠ d := by
  intro he
  subst he
  rw [h1] at h2
  exact absurd h2 (by simp)

theorem digit_not_space {c : Char} (h : c.isDigit = true) : isSpaceChar c = false := by
  by_cases h1 : c = ' '
  · subst h1; exact absurd h (by decide)
  by_cases h2 : c = '\t'
  · subst h2; exact absurd h (by decide)
  by_cases h3 : c = '\r'
  · subst h3; exact absurd h (by decide)
  by_cases h4 : c = '\n'
  · subst h4; exact absurd h (by decide)
  simp [isSpaceChar, Char.isWhitespace, h1, h2, h3, h4]

theorem isPrefixOf_append_self (l t : List Char) : l.isPrefixOf (l ++ t) = true := by
  rw [List.isPrefixOf_iff_prefix]
  exact List.prefix_append l t

theorem viableAt_head_ne_c {x : Char} (hx : x ≠ 'c') (v : List Char) :
    viableAt (x :: v) = none := by
  have hb : (('c' : Char) == x) = false := beq_eq_false_iff_ne.mpr (Ne.symm hx)
  simp [viableAt, chainIdTag, List.isPrefixOf, hb]

theorem viableAt_nil : viableAt [] = none := rfl

theorem lastViable_none {l : List Char} (h : ∀ x ∈ l, x ≠ 'c') :
    lastViable l = none := by
  induction l with
  | nil => rfl
  | cons x xs ih =>
    have hx : x ≠ 'c' := h x (by simp)
    rw [lastViable, ih (fun y hy => h y (by simp [hy]))]
    exact viableAt_head_ne_c hx xs

theorem lastViable_append_ne_c {l1 : List Char} (l2 : List Char)
    (h : ∀ x ∈ l1, x ≠ 'c') :
    lastViable (l1 ++ l2) =
      (lastViable l2).map (fun p => (p.1, p.2 + l1.length)) := by
  induction l1 with
  | nil =>
    cases hl : lastViable l2 with
    | none => simp [hl]
    | some q => simp [hl]
  | cons x xs ih =>
    have hx : x ≠ 'c' := h x (by simp)
    rw [List.cons_append, lastViable, ih (fun y hy => h y (by simp [hy]))]
    cases hl : lastViable l2 with
    | none => simp [viableAt_head_ne_c hx]
    | some q => simp [Nat.add_assoc]

theorem viableAt_tag (ds : List Char) (tail : List Char)
    (hne : ds ≠ []) (hds : ∀ c ∈ ds, c.isDigit = true) :
    viableAt (chainIdTag ++ ' ' :: ds ++ ' ' :: tail) =
      some (String.mk ds, 8 + 1 + ds.length) := by
  obtain ⟨d, ds2, rfl⟩ := List.exists_cons_of_ne_nil hne
  have hd : d.isDigit = true := hds d (by simp)
  have hpre : chainIdTag.isPrefixOf (chainIdTag ++ ' ' :: d :: ds2 ++ ' ' :: tail) = true :=
    isPrefixOf_append_self _ _
  have hdrop : (chainIdTag ++ ' ' :: d :: ds2 ++ ' ' :: tail).drop 8 =
      ' ' :: d :: ds2 ++ ' ' :: tail := rfl
  have hws : (' ' :: d :: ds2 ++ ' ' :: tail).takeWhile isSpaceChar = [' '] := by
    simp [List.takeWhile_cons, digit_not_space hd, show isSpaceChar ' ' = true from by decide]
  have htw : (d :: (ds2 ++ ' ' :: tail)).takeWhile Char.isDigit = d :: ds2 := by
    have h2 := takeWhile_run Char.isDigit (d :: ds2) ' ' tail hds (by decide)
    simpa using h2
  simp only [viableAt, hpre, if_true, hdrop, hws, List.length_cons, List.length_nil,
    List.drop_succ_cons, List.drop_zero, htw, List.isEmpty_cons, Bool.false_eq_true,
    if_false, Nat.zero_add, List.drop_one, List.tail_cons]
  rw [show (' ' :: d :: ds2 ++ ' ' :: tail).tail = d :: (ds2 ++ ' ' :: tail) from rfl, htw]
  simp

theorem lastViable_block (ds : List Char) (hne : ds ≠ [])
    (hds : ∀ c ∈ ds, c.isDigit = true) :
    lastViable (' ' :: (chainIdTag ++ ' ' :: ds ++ ' ' :: [])) =
      some (String.mk ds, 8 + 1 + ds.length + 1) := by
  have hnoC : ∀ x ∈ (['h', 'a', 'i', 'n', 'I', 'd', ':'] ++ ' ' :: ds ++ ' ' :: []),
      x ≠ 'c' := by
    intro x hx
    rcases List.mem_append.mp hx with h1 | h1
    · rcases List.mem_append.mp h1 with h2 | h2
      · intro he
        subst he
        revert h2
        decide
      · rcases List.mem_cons.mp h2 with h3 | h3
        · subst h3
          decide
        · exact ne_of_pred_mismatch (hds x h3) (by decide)
    · intro he
      subst he
      revert h1
      decide
  have hrest : lastViable (['h', 'a', 'i', 'n', 'I', 'd', ':'] ++ ' ' :: ds ++ ' ' :: []) =
      none := lastViable_none hnoC
  have htag : lastViable (chainIdTag ++ ' ' :: ds ++ ' ' :: []) =
      some (String.mk ds, 8 + 1 + ds.length) := by
    rw [show chainIdTag ++ ' ' :: ds ++ ' ' :: [] =
      'c' :: (['h', 'a', 'i', 'n', 'I', 'd', ':'] ++ ' ' :: ds ++ ' ' :: []) from rfl]
    rw [lastViable, hrest]
    have hv := viableAt_tag ds [] hne hds
    rw [show 'c' :: (['h', 'a', 'i', 'n', 'I', 'd', ':'] ++ ' ' :: ds ++ ' ' :: []) =
      chainIdTag ++ ' ' :: ds ++ ' ' :: [] from rfl]
    simpa using hv
  rw [lastViable, htag]

theorem matchAt_block (n tok cfg : List Char)
    (hn : n ≠ []) (hnw : ∀ c ∈ n, isWordChar c = true)
    (hne : tok ≠ []) (hds : ∀ c ∈ tok, c.isDigit = true) :
    matchAt (blockChars n tok ++ '\n' :: cfg) =
      some (String.mk n, String.mk tok, n.length + tok.length + 13) := by
  have hL : blockChars n tok ++ '\n' :: cfg =
      n ++ ':' :: ' ' :: '\x7b' ::
        (' ' :: (chainIdTag ++ ' ' :: (tok ++ ' ' :: '\x7d' :: '\n' :: cfg))) := by
    simp [blockChars, List.append_assoc]
  have hname : (n ++ ':' :: ' ' :: '\x7b' ::
      (' ' :: (chainIdTag ++ ' ' :: (tok ++ ' ' :: '\x7d' :: '\n' :: cfg)))).takeWhile
        isWordChar = n :=
    takeWhile_run _ _ _ _ hnw (by decide)
  have hdropL : (n ++ ':' :: ' ' :: '\x7b' ::
      (' ' :: (chainIdTag ++ ' ' :: (tok ++ ' ' :: '\x7d' :: '\n' :: cfg)))).drop n.length =
      ':' :: ' ' :: '\x7b' ::
        (' ' :: (chainIdTag ++ ' ' :: (tok ++ ' ' :: '\x7d' :: '\n' :: cfg))) :=
    List.drop_left _ _
  have hnotE : n.isEmpty = false := by
    cases n with
    | nil => exact absurd rfl hn
    | cons a as => rfl
  have hsplit : (' ' :: (chainIdTag ++ ' ' :: (tok ++ ' ' :: '\x7d' :: '\n' :: cfg))) =
      (' ' :: (chainIdTag ++ ' ' :: tok ++ ' ' :: [])) ++ ('\x7d' :: '\n' :: cfg) := by
    simp [List.append_assoc]
  have hxs : ∀ c ∈ (' ' :: (chainIdTag ++ ' ' :: tok ++ ' ' :: [])),
      (c != '\x7d') = true := by
    intro c hc
    rcases List.mem_cons.mp hc with h1 | h1
    · subst h1
      decide
    · have htagOk : ∀ x ∈ chainIdTag, (x != '\x7d') = true := by decide
      rcases List.mem_append.mp h1 with h2 | h2
      · rcases List.mem_append.mp h2 with h3 | h3
        · exact htagOk c h3
        · rcases List.mem_cons.mp h3 with h4 | h4
          · subst h4
            decide
          · simpa using ne_of_pred_mismatch (hds c h4) (by decide)
      · rcases List.mem_cons.mp h2 with h3 | h3
        · subst h3
          decide
        · cases h3
  have htake : (' ' :: (chainIdTag ++ ' ' :: (tok ++ ' ' :: '\x7d' :: '\n' :: cfg))).takeWhile
      (fun c => c != '\x7d') = ' ' :: (chainIdTag ++ ' ' :: tok ++ ' ' :: []) := by
    rw [hsplit]
    exact takeWhile_run _ _ _ _ hxs (by decide)
  have hinner : matchInner
      (' ' :: (chainIdTag ++ ' ' :: (tok ++ ' ' :: '\x7d' :: '\n' :: cfg))) =
      some (String.mk tok, 8 + 1 + tok.length + 1) := by
    rw [matchInner, htake]
    exact lastViable_block tok hne hds
  rw [hL]
  simp only [matchAt, hname, hnotE, hdropL, Bool.false_eq_true, if_false,
    List.takeWhile_cons, show isSpaceChar ':' = false from by decide,
    show isSpaceChar ' ' = true from by decide,
    show isSpaceChar '\x7b' = false from by decide]
  simp only [if_true, List.length_cons, List.length_nil, Nat.zero_add, List.drop_succ_cons,
    List.drop_zero, hinner]
  simp only [Option.some.injEq, Prod.mk.injEq]
  refine ⟨trivial, trivial, ?_⟩
  omega

theorem scanAux_nil (f : Nat) : scanAux f [] = [] := by
  cases f <;> rfl

theorem matchAt_nonword {c : Char} (h : isWordChar c = false) (cs : List Char) :
    matchAt (c :: cs) = none := by
  simp [matchAt, List.takeWhile_cons, h]

theorem scanAux_cons_some {c : Char} {cs : List Char} {r : String × String × Nat}
    (h : matchAt (c :: cs) = some r) (f : Nat) :
    scanAux (f + 1) (c :: cs) = (r.1, r.2.1) :: scanAux f ((c :: cs).drop (r.2.2.max 1)) := by
  obtain ⟨a, b, k⟩ := r
  simp [scanAux, h]

theorem scanAux_cons_none {c : Char} {cs : List Char}
    (h : matchAt (c :: cs) = none) (f : Nat) :
    scanAux (f + 1) (c :: cs) = scanAux f cs := by
  simp [scanAux, h]

theorem scanAux_some {l : List Char} {r : String × String × Nat}
    (hl : l ≠ []) (h : matchAt l = some r) (f : Nat) :
    scanAux (f + 1) l = (r.1, r.2.1) :: scanAux f (l.drop (r.2.2.max 1)) := by
  cases l with
  | nil => exact absurd rfl hl
  | cons c cs => exact scanAux_cons_some h f

theorem scanAux_buildConfig (blocks : List (List Char × List Char))
    (hw : ∀ b ∈ blocks, GoodBlock b) :
    ∀ fuel, (buildConfig blocks).length ≤ fuel →
      scanAux fuel (buildConfig blocks) =
        blocks.map (fun b => (String.mk b.1, String.mk b.2)) := by
  induction blocks with
  | nil =>
    intro fuel _
    exact scanAux_nil fuel
  | cons b rest ih =>
    obtain ⟨n, tok⟩ := b
    intro fuel hf
    obtain ⟨hn, hnw, hne, hds, -⟩ := hw (n, tok) (by simp)
    have hwrest : ∀ q ∈ rest, GoodBlock q := fun q hq => hw q (by simp [hq])
    have hnpos : 1 ≤ n.length := List.length_pos.mpr hn
    have htpos : 1 ≤ tok.length := List.length_pos.mpr hne
    have hlen : (buildConfig ((n, tok) :: rest)).length =
        n.length + tok.length + 16 + (buildConfig rest).length := by
      show (blockChars n tok ++ '\n' :: buildConfig rest).length = _
      simp [blockChars, chainIdTag]
      omega
    obtain ⟨f, rfl⟩ : ∃ f, fuel = f + 4 := ⟨fuel - 4, by omega⟩
    have hmatch : matchAt (buildConfig ((n, tok) :: rest)) =
        some (String.mk n, String.mk tok, n.length + tok.length + 13) :=
      matchAt_block n tok (buildConfig rest) hn hnw hne hds
    have hbne : buildConfig ((n, tok) :: rest) ≠ [] := by
      intro he
      rw [he] at hlen
      simp at hlen
      omega
    have hre : buildConfig ((n, tok) :: rest) =
        (n ++ ':' :: ' ' :: '\x7b' :: ' ' :: (chainIdTag ++ ' ' :: tok)) ++
          (' ' :: '\x7d' :: '\n' :: buildConfig rest) := by
      show blockChars n tok ++ '\n' :: buildConfig rest = _
      simp [blockChars, List.append_assoc]
    have hlenA : (n ++ ':' :: ' ' :: '\x7b' :: ' ' :: (chainIdTag ++ ' ' :: tok)).length =
        n.length + tok.length + 13 := by
      simp [chainIdTag]
      omega
    have hdrop4 : (buildConfig ((n, tok) :: rest)).drop (n.length + tok.length + 13) =
        ' ' :: '\x7d' :: '\n' :: buildConfig rest := by
      rw [hre, ← hlenA]
      exact List.drop_left _ _
    have hmax : (n.length + tok.length + 13).max 1 = n.length + tok.length + 13 :=
      Nat.max_eq_left (by omega)
    rw [show f + 4 = (f + 3) + 1 from rfl,
      scanAux_some hbne hmatch (f + 3)]
    simp only [hmax, hdrop4]
    rw [show f + 3 = (f + 2) + 1 from rfl,
      scanAux_cons_none (matchAt_nonword (by decide) _) (f + 2)]
    rw [show f + 2 = (f + 1) + 1 from rfl,
      scanAux_cons_none (matchAt_nonword (by decide) _) (f + 1)]
    rw [scanAux_cons_none (matchAt_nonword (by decide) _) f]
    rw [ih hwrest f (by omega)]
    rfl

theorem lookupName_cons (a : String × Nat) (l : List (String × Nat)) (k : String) :
    lookupName (a :: l) k = if (a.1 == k) = true then some a.2 else lookupName l k := by
  by_cases h : (a.1 == k) = true
  · simp [lookupName, List.find?_cons_of_pos, h]
  · have h' : (a.1 == k) = false := by simpa using h
    simp [lookupName, List.find?_cons_of_neg, h']

theorem lookupName_map_replace (k2 : String) (v : Nat) (k : String) (hk : k ≠ k2)
    (l : List (String × Nat)) :
    lookupName (l.map (fun p => if p.1 == k2 then (k2, v) else p)) k = lookupName l k := by
  induction l with
  | nil => rfl
  | cons a l ih =>
    have h1 : ((k2 : String) == k) = false := beq_eq_false_iff_ne.mpr (Ne.symm hk)
    by_cases hab : (a.1 == k2) = true
    · have ha : a.1 = k2 := by simpa using hab
      have h2 : (a.1 == k) = false := by rw [ha]; exact h1
      simp only [List.map_cons, hab, if_true]
      rw [lookupName_cons, lookupName_cons]
      simp only [h1, h2, Bool.false_eq_true, if_false]
      exact ih
    · have hab' : (a.1 == k2) = false := by simpa using hab
      simp only [List.map_cons, hab', Bool.false_eq_true, if_false]
      rw [lookupName_cons, lookupName_cons]
      by_cases h2 : (a.1 == k) = true
      · simp [h2]
      · have h2' : (a.1 == k) = false := by simpa using h2
        simp only [h2', Bool.false_eq_true, if_false]
        exact ih

theorem lookupName_hashInsert (l : List (String × Nat)) (k2 : String) (v : Nat) (k : String) :
    lookupName (hashInsert l k2 v) k = if k = k2 then some v else lookupName l k := by
  by_cases hany : (l.any (fun p => p.1 == k2)) = true
  · -- replacement branch
    rw [hashInsert, if_pos hany]
    induction l with
    | nil => simp [List.any_nil] at hany
    | cons a l ih =>
      by_cases hab : (a.1 == k2) = true
      · simp only [List.map_cons, hab, if_true]
        rw [lookupName_cons]
        by_cases hk : k = k2
        · subst hk
          simp [lookupName_cons]
        · have h1 : ((k2 : String) == k) = false := beq_eq_false_iff_ne.mpr (Ne.symm hk)
          simp only [show ((k2, v).1 == k) = false from h1, Bool.false_eq_true, if_false]
          rw [lookupName_map_replace k2 v k hk l]
          rw [if_neg hk, lookupName_cons]
          have ha : a.1 = k2 := by simpa using hab
          have h2 : (a.1 == k) = false := by rw [ha]; exact h1
          simp [h2]
      · have hab' : (a.1 == k2) = false := by simpa using hab
        have hany' : (l.any (fun p => p.1 == k2)) = true := by
          rcases List.any_eq_true.mp hany with ⟨x, hx, hpx⟩
          rcases List.mem_cons.mp hx with h | h
          · subst h
            exact absurd hpx hab
          · exact List.any_eq_true.mpr ⟨x, h, hpx⟩
        simp only [List.map_cons, hab', Bool.false_eq_true, if_false]
        rw [lookupName_cons, lookupName_cons]
        by_cases h2 : (a.1 == k) = true
        · have ha : a.1 = k := by simpa using h2
          have hkk : ¬ k = k2 := by
            intro he
            rw [he] at ha
            rw [ha] at hab'
            simp at hab'
          simp [h2, hkk]
        · have h2' : (a.1 == k) = false := by simpa using h2
          simp only [h2', Bool.false_eq_true, if_false]
          exact ih hany'
  · -- append branch
    have hany' : (l.any (fun p => p.1 == k2)) = false := Bool.eq_false_iff.mpr hany
    rw [hashInsert, if_neg (by simp [hany'])]
    by_cases hk : k = k2
    · subst hk
      have hnone : l.find? (fun p => p.1 == k) = none := by
        rw [List.find?_eq_none]
        exact List.any_eq_false.mp hany'
      rw [lookupName, List.find?_append, hnone]
      simp [List.find?_cons_of_pos]
    · rw [lookupName, List.find?_append]
      have h1 : ((k2 : String) == k) = false := beq_eq_false_iff_ne.mpr (Ne.symm hk)
      have hnone2 : [(k2, v)].find? (fun p => p.1 == k) = none := by
        rw [List.find?_eq_none]
        intro x hx
        rcases List.mem_cons.mp hx with h | h
        · subst h
          simp [h1]
        · cases h
      rw [hnone2, if_neg hk]
      cases hfind : l.find? (fun p => p.1 == k) with
      | none => simp [lookupName, hfind]
      | some q => simp [lookupName, hfind]

theorem lookupName_foldl_hashInsert (k : String) (l : List (String × Nat)) :
    ∀ acc : List (String × Nat),
      lookupName (l.foldl (fun a p => hashInsert a p.1 p.2) acc) k =
        match (l.filter (fun p => p.1 == k)).getLast? with
        | some q => some q.2
        | none => lookupName acc k := by
  induction l using List.reverseRecOn with
  | nil => intro acc; rfl
  | append_singleton l p ih =>
    intro acc
    rw [List.foldl_append]
    simp only [List.foldl_cons, List.foldl_nil]
    rw [lookupName_hashInsert, List.filter_append]
    by_cases hp : (p.1 == k) = true
    · have hk : k = p.1 := (beq_iff_eq.mp hp).symm
      rw [if_pos hk]
      simp [List.filter_cons, hp, List.getLast?_concat]
    · have hp' : (p.1 == k) = false := by simpa using hp
      have hk : ¬ k = p.1 := fun he => by
        rw [he] at hp'
        simp at hp'
      rw [if_neg hk]
      simp only [List.filter_cons, hp', Bool.false_eq_true, if_false, List.filter_nil,
        List.append_nil]
      exact ih acc

theorem foldl_hashInsert_length (l : List (String × Nat)) :
    ∀ acc : List (String × Nat),
      (acc.map Prod.fst ++ l.map Prod.fst).Nodup →
      (l.foldl (fun a p => hashInsert a p.1 p.2) acc).length = acc.length + l.length := by
  induction l with
  | nil =>
    intro acc _
    simp
  | cons p l ih =>
    intro acc h
    have hd : List.Disjoint (acc.map Prod.fst) (p.1 :: l.map Prod.fst) := by
      have := (List.nodup_append.mp (by simpa using h)).2.2
      exact this
    have hfresh : ∀ q ∈ acc, (q.1 == p.1) = false := by
      intro q hq
      have hq1 : q.1 ∈ acc.map Prod.fst := List.mem_map_of_mem Prod.fst hq
      have : q.1 ∉ p.1 :: l.map Prod.fst := fun hmem => hd hq1 hmem
      have hne : q.1 ≠ p.1 := fun he => this (by simp [he])
      exact beq_eq_false_iff_ne.mpr hne
    have hany : (acc.any (fun q => q.1 == p.1)) = false :=
      List.any_eq_false.mpr (fun q hq => by simp [hfresh q hq])
    rw [List.foldl_cons,
      show hashInsert acc p.1 p.2 = acc ++ [(p.1, p.2)] from by
        rw [hashInsert, if_neg (by simp [hany])]]
    rw [ih (acc ++ [(p.1, p.2)]) (by simpa [List.append_assoc] using h)]
    simp
    omega

theorem foldlM_parse_ok (caps : List (String × String)) :
    ∀ acc : List (String × Nat),
      (∀ p ∈ caps, digitsToNat p.2.data ≤ u64max) →
      (caps.foldlM (fun acc nd =>
          if u64max < digitsToNat nd.2.data then
            Except.error ("Invalid chain ID for network " ++ nd.1)
          else Except.ok (hashInsert acc nd.1 (digitsToNat nd.2.data))) acc
        : Except String (List (String × Nat))) =
      Except.ok (caps.foldl
        (fun acc nd => hashInsert acc nd.1 (digitsToNat nd.2.data)) acc) := by
  induction caps with
  | nil =>
    intro acc _
    rfl
  | cons p caps ih =>
    intro acc h
    have hp : ¬ u64max < digitsToNat p.2.data := by
      have := h p (by simp)
      omega
    rw [List.foldlM_cons, if_neg hp]
    show ((Except.ok (hashInsert acc p.1 (digitsToNat p.2.data)) : Except String _) >>=
      fun b => caps.foldlM _ b) = _
    rw [show ∀ (x : List (String × Nat)) (g : List (String × Nat) →
        Except String (List (String × Nat))),
        ((Except.ok x : Except String (List (String × Nat))) >>= g) = g x from
      fun x g => rfl]
    rw [List.foldl_cons]
    exact ih _ (fun q hq => h q (by simp [hq]))

/-- C9: for a config text made of any number of well-formed, non-overlapping
network blocks, the extractor succeeds and returns the mapping obtained by
inserting every block's `(name, chainId)` pair in order; with no duplicate
names this mapping has exactly N entries; the empty config yields the empty
mapping and not an error; and in the map built by insertion a duplicated name
resolves to its last occurrence. -/
theorem c9_extractor (blocks : List (List Char × List Char))
    (hw : ∀ b ∈ blocks, GoodBlock b) :
    parse_hardhat_config (String.mk (buildConfig blocks)) =
      Except.ok (insertAll (blocks.map (fun b => (String.mk b.1, digitsToNat b.2)))) ∧
    parse_hardhat_config "" = Except.ok [] ∧
    ((blocks.map (fun b => String.mk b.1)).Nodup →
      (insertAll (blocks.map (fun b => (String.mk b.1, digitsToNat b.2)))).length =
        blocks.length) ∧
    (∀ (l : List (String × Nat)) (k : String),
      lookupName (insertAll l) k =
        match (l.filter (fun p => p.1 == k)).getLast? with
        | some q => some q.2
        | none => none) := by
  refine ⟨?_, rfl, ?_, ?_⟩
  · have hscan : scanCaptures (buildConfig blocks) =
        blocks.map (fun b => (String.mk b.1, String.mk b.2)) :=
      scanAux_buildConfig blocks hw (buildConfig blocks).length (le_refl _)
    have hbound : ∀ p ∈ blocks.map (fun b => (String.mk b.1, String.mk b.2)),
        digitsToNat p.2.data ≤ u64max := by
      intro p hp
      rcases List.mem_map.mp hp with ⟨b, hb, rfl⟩
      exact (hw b hb).2.2.2.2
    rw [parse_hardhat_config]
    rw [show (String.mk (buildConfig blocks)).data = buildConfig blocks from rfl]
    rw [hscan, foldlM_parse_ok _ [] hbound]
    rw [insertAll, List.foldl_map, List.foldl_map]
  · intro hnd
    have := foldl_hashInsert_length
      (blocks.map (fun b => (String.mk b.1, digitsToNat b.2))) [] (by
        simpa [List.map_map, Function.comp] using hnd)
    rw [insertAll, this]
    simp
  · intro l k
    have := lookupName_foldl_hashInsert k l []
    rw [insertAll, this]
    rfl

/-- C9 witness: the extractor theorem at a concrete two-block config. -/
theorem c9_witness :
    (∀ b ∈ ([("polygon".data, "137".data), ("base".data, "8453".data)] :
        List (List Char × List Char)), GoodBlock b) ∧
    parse_hardhat_config (String.mk (buildConfig
      [("polygon".data, "137".data), ("base".data, "8453".data)])) =
      Except.ok [("polygon", 137), ("base", 8453)] := by
  refine ⟨by decide, ?_⟩
  have h := (c9_extractor [("polygon".data, "137".data), ("base".data, "8453".data)]
    (by decide)).1
  rw [h]
  exact congrArg Except.ok (by decide)
